import Mathlib

/-!
Shallow embedding of the ESS (energy storage system) night-charging optimizer.

The embedded code is:
  * `find_optimal_charging_windows` and `is_charging_profitable` from
    `src/energy_storage_optimizer.py` (the generalized optimizer allowing a
    single contiguous charging window or a split into two windows inside the
    first 7 hours of the day), and
  * `find_cheapest_night_charging` from `src/ESS.py` (the simple
    single-window variant).

Python floats are modelled as rationals (`ℚ`); the Python `float('inf')`
sentinel used to initialize the running minimum is modelled as `none` in an
`Option ℚ`, so the "update the best on a strictly smaller mean" loop becomes a
left fold with an optional running minimum.  Raised exceptions
(`ValueError` for an over-long charging duration, `ZeroDivisionError` for an
empty daily price list, identified in the specification as
`InvalidConfiguration` and `InvalidInput`) are modelled with `Except`.
-/

namespace ESS

/-- Error kinds surfaced by the core, as named in the specification:
`InvalidConfiguration` is the `ValueError` raised for an over-long charging
duration, `InvalidInput` the failure on an empty daily price series. -/
inductive OptError where
  | InvalidConfiguration
  | InvalidInput
deriving DecidableEq

/-- The `NIGHT_HOURS` constant of `find_optimal_charging_windows`
(`src/energy_storage_optimizer.py`): the length of the eligible early-day
prefix.  `src/ESS.py` uses the same value under the name
`num_hours_considered`. -/
def NIGHT_HOURS : ℕ := 7

/-- `((night.drop s).take (e - s)).sum` is the Python slice sum
`sum(night_prices[s:e])`. -/
def windowSum (night : List ℚ) (s e : ℕ) : ℚ := ((night.drop s).take (e - s)).sum

/-- One update step of the running minimum: a candidate `c = (payload, mean)`
replaces the current best exactly when its mean is strictly smaller
(`if mean_price < min_mean` in the Python code); `none` models the initial
`float('inf')`, which any candidate beats. -/
def stepBest {α : Type} (acc : Option ℚ × α) (c : α × ℚ) : Option ℚ × α :=
  match acc.1 with
  | none => (some c.2, c.1)
  | some m => if c.2 < m then (some c.2, c.1) else acc

/-- Fold the strict-improvement update over a candidate list, starting from
`min_mean = inf` and the given initial payload (`best_windows = []` in
`energy_storage_optimizer.py`, `index = 0` in `ESS.py`). -/
def chooseBest {α : Type} (init : α) (cands : List (α × ℚ)) : Option ℚ × α :=
  cands.foldl stepBest (none, init)

/-- The single-block candidates of `find_optimal_charging_windows`, in
enumeration order: `for start in range(NIGHT_HOURS - hours_to_charge + 1)`,
window `[(start, start + hours_to_charge)]`, mean
`sum(night_prices[start:end]) / hours_to_charge`. -/
def singleCandidates (night : List ℚ) (hours_to_charge : ℕ) :
    List (List (ℕ × ℕ) × ℚ) :=
  (List.range (NIGHT_HOURS - hours_to_charge + 1)).map fun s =>
    ([(s, s + hours_to_charge)], windowSum night s (s + hours_to_charge) / hours_to_charge)

/-- The split (two-window) candidates of `find_optimal_charging_windows`, in
enumeration order: `for window1_size in range(1, hours_to_charge)`, then
`for start1 in range(NIGHT_HOURS - window1_size + 1)`, then
`for start2 in range(end1, NIGHT_HOURS - window2_size + 1)`, with
`window2_size = hours_to_charge - window1_size`, `end1 = start1 + window1_size`
and combined mean `(sum(window1) + sum(window2)) / hours_to_charge`. -/
def splitCandidates (night : List ℚ) (hours_to_charge : ℕ) :
    List (List (ℕ × ℕ) × ℚ) :=
  (List.range' 1 (hours_to_charge - 1)).flatMap fun w1 =>
    (List.range (NIGHT_HOURS - w1 + 1)).flatMap fun s1 =>
      (List.range' (s1 + w1) (NIGHT_HOURS - (hours_to_charge - w1) + 1 - (s1 + w1))).map fun s2 =>
        ([(s1, s1 + w1), (s2, s2 + (hours_to_charge - w1))],
          (windowSum night s1 (s1 + w1) +
            windowSum night s2 (s2 + (hours_to_charge - w1))) / hours_to_charge)

/-- All candidates of `find_optimal_charging_windows` in the order the Python
loops visit them: first all single-block candidates, then all split
candidates. -/
def allCandidates (night : List ℚ) (hours_to_charge : ℕ) :
    List (List (ℕ × ℕ) × ℚ) :=
  singleCandidates night hours_to_charge ++ splitCandidates night hours_to_charge

/-- `EnergyStorageOptimizer.find_optimal_charging_windows` from
`src/energy_storage_optimizer.py`: raises for `hours_to_charge > NIGHT_HOURS`,
otherwise restricts to the first `NIGHT_HOURS` prices and returns the
best window list together with its mean price (the optional mean is `none`
only if no candidate was ever visited, modelling the `float('inf')`
initialization). -/
def find_optimal_charging_windows (prices : List ℚ) (hours_to_charge : ℕ) :
    Except OptError (List (ℕ × ℕ) × Option ℚ) :=
  if hours_to_charge > NIGHT_HOURS then .error .InvalidConfiguration
  else
    let r := chooseBest [] (allCandidates (prices.take NIGHT_HOURS) hours_to_charge)
    .ok (r.2, r.1)

/-- `EnergyStorageOptimizer.is_charging_profitable` from
`src/energy_storage_optimizer.py`: `mean_charge_price * price_multiplier <=
sum(daily_prices) / len(daily_prices)`; the division by zero on an empty list
(`InvalidInput` in the specification) is the error case. -/
def is_charging_profitable (mean_charge_price price_multiplier : ℚ)
    (daily_prices : List ℚ) : Except OptError Bool :=
  if daily_prices.length = 0 then .error .InvalidInput
  else .ok (decide (mean_charge_price * price_multiplier ≤
    daily_prices.sum / daily_prices.length))

/-- `find_cheapest_night_charging` from `src/ESS.py`: single contiguous window
only; iterates `for i in range(len(electricity_prices) - hours_to_charge + 1)`
over the 7-hour prefix, keeping the earliest index of strictly-minimal mean
(initial `index = 0`, `min_mean = inf`). -/
def find_cheapest_night_charging (electricity_prices : List ℚ)
    (hours_to_charge : ℕ) : Except OptError (ℕ × Option ℚ) :=
  if hours_to_charge > NIGHT_HOURS then .error .InvalidConfiguration
  else
    let night := electricity_prices.take NIGHT_HOURS
    let r := chooseBest 0 ((List.range (night.length - hours_to_charge + 1)).map fun i =>
      (i, windowSum night i (i + hours_to_charge) / hours_to_charge))
    .ok (r.2, r.1)

/-- Characterization of the strict-improvement fold started from a first
adopted candidate `(m, w)`: the final minimum is a lower bound of everything
seen, and either nothing improved on `(m, w)` or the result is the earliest
strictly-improving candidate attaining the final minimum. -/
lemma foldl_stepBest_some {α : Type} (cs : List (α × ℚ)) (m : ℚ) (w : α) :
    ∃ m' w', cs.foldl stepBest (some m, w) = (some m', w') ∧
      (∀ c ∈ cs, m' ≤ c.2) ∧ m' ≤ m ∧
      ((m' = m ∧ w' = w) ∨
       (m' < m ∧ ∃ i : ℕ, cs[i]? = some (w', m') ∧
         ∀ (j : ℕ) (c : α × ℚ), j < i → cs[j]? = some c → m' < c.2)) := by
  induction cs generalizing m w with
  | nil => exact ⟨m, w, rfl, by simp, le_refl m, Or.inl ⟨rfl, rfl⟩⟩
  | cons c cs ih =>
    rw [List.foldl_cons]
    by_cases hc : c.2 < m
    · have hstep : stepBest (some m, w) c = (some c.2, c.1) := by
        simp [stepBest, hc]
      rw [hstep]
      obtain ⟨m', w', heq, hall, hle, hdisj⟩ := ih c.2 c.1
      refine ⟨m', w', heq, ?_, le_of_lt (lt_of_le_of_lt hle hc), Or.inr ⟨lt_of_le_of_lt hle hc, ?_⟩⟩
      · intro c' hc'
        rcases List.mem_cons.mp hc' with h | h
        · subst h; exact hle
        · exact hall c' h
      · rcases hdisj with ⟨hm, hw⟩ | ⟨hlt, i, hi, hj⟩
        · refine ⟨0, ?_, ?_⟩
          · simp [hm, hw]
          · intro j c' hj0 _; omega
        · refine ⟨i + 1, by simpa using hi, ?_⟩
          intro j c' hji hjg
          cases j with
          | zero =>
            simp at hjg
            subst hjg
            exact hlt
          | succ k =>
            simp at hjg
            exact hj k c' (by omega) hjg
    · have hm : m ≤ c.2 := le_of_not_lt hc
      have hstep : stepBest (some m, w) c = (some m, w) := by
        simp [stepBest, hc]
      rw [hstep]
      obtain ⟨m', w', heq, hall, hle, hdisj⟩ := ih m w
      refine ⟨m', w', heq, ?_, hle, ?_⟩
      · intro c' hc'
        rcases List.mem_cons.mp hc' with h | h
        · subst h; exact le_trans hle hm
        · exact hall c' h
      · rcases hdisj with ⟨hmm, hw⟩ | ⟨hlt, i, hi, hj⟩
        · exact Or.inl ⟨hmm, hw⟩
        · refine Or.inr ⟨hlt, i + 1, by simpa using hi, ?_⟩
          intro j c' hji hjg
          cases j with
          | zero =>
            simp at hjg
            subst hjg
            exact lt_of_lt_of_le hlt hm
          | succ k =>
            simp at hjg
            exact hj k c' (by omega) hjg

/-- On a non-empty candidate list, `chooseBest` returns a minimum of the
candidate means together with the payload of the earliest candidate attaining
it: every strictly earlier candidate has a strictly larger mean. -/
lemma chooseBest_spec {α : Type} (init : α) (cands : List (α × ℚ)) (hne : cands ≠ []) :
    ∃ m w, chooseBest init cands = (some m, w) ∧
      (∀ c ∈ cands, m ≤ c.2) ∧
      ∃ i : ℕ, cands[i]? = some (w, m) ∧
        ∀ (j : ℕ) (c : α × ℚ), j < i → cands[j]? = some c → m < c.2 := by
  match cands, hne with
  | c :: cs, _ =>
    have hstep : chooseBest init (c :: cs) = cs.foldl stepBest (some c.2, c.1) := by
      simp [chooseBest, stepBest]
    obtain ⟨m', w', heq, hall, hle, hdisj⟩ := foldl_stepBest_some cs c.2 c.1
    refine ⟨m', w', by rw [hstep, heq], ?_, ?_⟩
    · intro c' hc'
      rcases List.mem_cons.mp hc' with h | h
      · subst h; exact hle
      · exact hall c' h
    · rcases hdisj with ⟨hm, hw⟩ | ⟨hlt, i, hi, hj⟩
      · exact ⟨0, by simp [hm, hw], by intro j c' hj0 _; omega⟩
      · refine ⟨i + 1, by simpa using hi, ?_⟩
        intro j c' hji hjg
        cases j with
        | zero =>
          simp at hjg
          subst hjg
          exact hlt
        | succ k =>
          simp at hjg
          exact hj k c' (by omega) hjg

/-- A successful indexed lookup yields a member of the list. -/
lemma mem_of_getElem_eq {α : Type} {l : List α} {i : ℕ} {a : α}
    (h : l[i]? = some a) : a ∈ l := by
  obtain ⟨hlt, he⟩ := List.getElem?_eq_some.mp h
  exact he ▸ List.getElem_mem hlt

/-- A successful indexed lookup's index is below the length. -/
lemma lt_length_of_getElem_eq {α : Type} {l : List α} {i : ℕ} {a : α}
    (h : l[i]? = some a) : i < l.length :=
  (List.getElem?_eq_some.mp h).1

/-- Every single block `[s, s+hours)` fitting in the night prefix is
enumerated as a single-block candidate. -/
lemma singleCandidates_mem (night : List ℚ) (hours s : ℕ)
    (hs : s + hours ≤ NIGHT_HOURS) :
    ([(s, s + hours)], windowSum night s (s + hours) / hours) ∈
      singleCandidates night hours := by
  refine List.mem_map.mpr ⟨s, ?_, rfl⟩
  rw [List.mem_range]
  simp only [NIGHT_HOURS] at *
  omega

/-- Every ordered pair of disjoint blocks of positive sizes summing to
`hours` that fits in the night prefix is enumerated as a split candidate. -/
lemma splitCandidates_mem (night : List ℚ) (hours w1 w2 s1 s2 : ℕ)
    (hw1 : 1 ≤ w1) (hw2 : 1 ≤ w2) (hsum : w1 + w2 = hours)
    (hgap : s1 + w1 ≤ s2) (hfit : s2 + w2 ≤ NIGHT_HOURS) :
    ([(s1, s1 + w1), (s2, s2 + w2)],
      (windowSum night s1 (s1 + w1) + windowSum night s2 (s2 + w2)) / hours) ∈
      splitCandidates night hours := by
  have hrw : hours - w1 = w2 := by omega
  refine List.mem_flatMap.mpr ⟨w1, ?_, ?_⟩
  · rw [List.mem_range'_1]; omega
  · refine List.mem_flatMap.mpr ⟨s1, ?_, ?_⟩
    · rw [List.mem_range]
      simp only [NIGHT_HOURS] at *
      omega
    · refine List.mem_map.mpr ⟨s2, ?_, ?_⟩
      · rw [List.mem_range'_1, hrw]
        simp only [NIGHT_HOURS] at *
        omega
      · rw [hrw]

/-- The candidate list is never empty: the single-block loop always visits at
least the block starting at offset `0`. -/
lemma allCandidates_ne_nil (night : List ℚ) (hours : ℕ) :
    allCandidates night hours ≠ [] := by
  simp only [allCandidates, singleCandidates, ne_eq, List.append_eq_nil,
    List.map_eq_nil_iff, List.range_eq_nil, not_and]
  omega

/-- Structure of every enumerated candidate `(windows, mean)`: the windows
cover exactly `hours` hours, each window is non-degenerate and inside the
night prefix, the windows are disjoint and sorted, there are at most two of
them, and the mean is the sum of the per-window slice sums divided by
`hours`. -/
lemma allCandidates_shape (night : List ℚ) (hours : ℕ)
    (h1 : 1 ≤ hours) (h7 : hours ≤ NIGHT_HOURS)
    (c : List (ℕ × ℕ) × ℚ) (hc : c ∈ allCandidates night hours) :
    (c.1.map fun w => w.2 - w.1).sum = hours ∧
    (∀ w ∈ c.1, w.1 < w.2 ∧ w.2 ≤ NIGHT_HOURS) ∧
    c.1.Pairwise (fun a b => a.2 ≤ b.1) ∧
    c.1.length ≤ 2 ∧
    c.2 = (c.1.map fun w => windowSum night w.1 w.2).sum / hours := by
  simp only [NIGHT_HOURS] at h7 ⊢
  rcases List.mem_append.mp hc with hs | hs
  · obtain ⟨s, hsr, rfl⟩ := List.mem_map.mp hs
    rw [List.mem_range] at hsr
    simp only [NIGHT_HOURS] at hsr
    refine ⟨by simp, ?_, by simp, by simp, by simp⟩
    intro w hw
    simp only [List.mem_singleton] at hw
    subst hw
    constructor <;> [omega; omega]
  · obtain ⟨w1, hw1r, hrest⟩ := List.mem_flatMap.mp hs
    obtain ⟨s1, hs1r, hrest2⟩ := List.mem_flatMap.mp hrest
    obtain ⟨s2, hs2r, rfl⟩ := List.mem_map.mp hrest2
    rw [List.mem_range'_1] at hw1r hs2r
    rw [List.mem_range] at hs1r
    simp only [NIGHT_HOURS] at hs1r hs2r
    refine ⟨by simp; omega, ?_, ?_, by simp, by simp⟩
    · intro w hw
      simp only [List.mem_cons, List.mem_singleton, List.not_mem_nil, or_false] at hw
      rcases hw with hw | hw <;> subst hw <;> constructor <;> omega
    · refine List.pairwise_cons.mpr ⟨?_, ?_⟩
      · intro b hb
        rcases List.mem_cons.mp hb with hb | hb
        · subst hb
          show s1 + w1 ≤ s2
          omega
        · exact absurd hb (List.not_mem_nil b)
      · exact List.pairwise_cons.mpr
          ⟨fun b hb => absurd hb (List.not_mem_nil b), List.Pairwise.nil⟩

/-- Master specification of `find_optimal_charging_windows` for a valid
charging duration: the call succeeds and returns the earliest candidate, in
the code's enumeration order, whose mean is minimal among all candidates. -/
lemma find_optimal_spec (prices : List ℚ) (hours : ℕ)
    (h7 : hours ≤ NIGHT_HOURS) :
    ∃ ws m, find_optimal_charging_windows prices hours = .ok (ws, some m) ∧
      (∀ c ∈ allCandidates (prices.take NIGHT_HOURS) hours, m ≤ c.2) ∧
      ∃ i : ℕ, (allCandidates (prices.take NIGHT_HOURS) hours)[i]? = some (ws, m) ∧
        ∀ (j : ℕ) (c : List (ℕ × ℕ) × ℚ), j < i →
          (allCandidates (prices.take NIGHT_HOURS) hours)[j]? = some c → m < c.2 := by
  obtain ⟨m, w, hcb, hmin, i, hi, hearly⟩ :=
    chooseBest_spec [] (allCandidates (prices.take NIGHT_HOURS) hours)
      (allCandidates_ne_nil _ _)
  refine ⟨w, m, ?_, hmin, i, hi, hearly⟩
  have hnot : ¬ hours > NIGHT_HOURS := not_lt.mpr h7
  simp only [find_optimal_charging_windows, if_neg hnot, hcb]

/-- Master specification of `find_cheapest_night_charging` for a valid
charging duration on a full price series: the call succeeds and returns the
earliest start index of a minimum-mean contiguous block of the requested
length inside the 7-hour prefix, together with that minimum mean. -/
lemma find_cheapest_spec (prices : List ℚ) (hours : ℕ)
    (h1 : 1 ≤ hours) (h7 : hours ≤ NIGHT_HOURS) (hlen : NIGHT_HOURS ≤ prices.length) :
    ∃ idx m, find_cheapest_night_charging prices hours = .ok (idx, some m) ∧
      m = windowSum (prices.take NIGHT_HOURS) idx (idx + hours) / hours ∧
      idx + hours ≤ NIGHT_HOURS ∧
      (∀ s : ℕ, s + hours ≤ NIGHT_HOURS →
        m ≤ windowSum (prices.take NIGHT_HOURS) s (s + hours) / hours) ∧
      ∀ s : ℕ, s < idx → m < windowSum (prices.take NIGHT_HOURS) s (s + hours) / hours := by
  have h7' : hours ≤ 7 := h7
  have hlen' : 7 ≤ prices.length := hlen
  have hn : (prices.take NIGHT_HOURS).length = 7 := by
    rw [List.length_take]
    show min 7 prices.length = 7
    omega
  set cands := (List.range ((prices.take NIGHT_HOURS).length - hours + 1)).map fun i =>
    (i, windowSum (prices.take NIGHT_HOURS) i (i + hours) / hours) with hcands
  have hclen : cands.length = 7 - hours + 1 := by
    rw [hcands, List.length_map, List.length_range, hn]
  have hne : cands ≠ [] := by
    intro hnil
    have := congrArg List.length hnil
    rw [hclen] at this
    simp at this
  have hcand : ∀ j : ℕ, j < 7 - hours + 1 →
      cands[j]? = some (j, windowSum (prices.take NIGHT_HOURS) j (j + hours) / hours) := by
    intro j hj
    rw [hcands, List.getElem?_map]
    rw [hn]
    simp [List.getElem?_range, hj]
  obtain ⟨m, w, hcb, hmin, i, hi, hearly⟩ := chooseBest_spec 0 cands hne
  have hilen : i < 7 - hours + 1 := by
    have := lt_length_of_getElem_eq hi
    rwa [hclen] at this
  have hiw : w = i ∧ m = windowSum (prices.take NIGHT_HOURS) i (i + hours) / hours := by
    have h2 := hcand i hilen
    rw [hi] at h2
    simp only [Option.some.injEq, Prod.mk.injEq] at h2
    exact ⟨h2.1, h2.2⟩
  obtain ⟨rfl, hm⟩ := hiw
  refine ⟨w, m, ?_, hm, ⟨?_, ?_, ?_⟩⟩
  case refine_2 =>
    show w + hours ≤ 7
    omega
  · have hnot : ¬ hours > NIGHT_HOURS := not_lt.mpr h7
    simp only [find_cheapest_night_charging, if_neg hnot, ← hcands, hcb]
  · intro s hs
    have hsmem : (s, windowSum (prices.take NIGHT_HOURS) s (s + hours) / hours) ∈ cands := by
      rw [hcands]
      refine List.mem_map.mpr ⟨s, ?_, rfl⟩
      rw [List.mem_range, hn]
      have : s + hours ≤ 7 := hs
      omega
    exact hmin _ hsmem
  · intro s hs
    have hscand := hcand s (by omega)
    exact hearly s _ hs hscand

/-- C1: for every prices list with at least 7 entries and every chargeHours in
`[1, 7]`, `find_optimal_charging_windows` succeeds and returns the minimum
mean over all candidates — it is attained by an enumerated candidate, is at
most the mean of every single contiguous block of length chargeHours inside
the first 7 entries, at most the combined mean of every pair of disjoint
blocks of positive sizes summing to chargeHours inside the first 7 entries,
and in particular at most the mean of the single block starting at offset
`0`. -/
theorem find_optimal_returns_min_mean (prices : List ℚ) (hours : ℕ)
    (hlen : NIGHT_HOURS ≤ prices.length) (h1 : 1 ≤ hours) (h7 : hours ≤ NIGHT_HOURS) :
    ∃ ws m, find_optimal_charging_windows prices hours = .ok (ws, some m) ∧
      (ws, m) ∈ allCandidates (prices.take NIGHT_HOURS) hours ∧
      (∀ c ∈ allCandidates (prices.take NIGHT_HOURS) hours, m ≤ c.2) ∧
      (∀ s : ℕ, s + hours ≤ NIGHT_HOURS →
        m ≤ windowSum (prices.take NIGHT_HOURS) s (s + hours) / hours) ∧
      (∀ w1 w2 s1 s2 : ℕ, 1 ≤ w1 → 1 ≤ w2 → w1 + w2 = hours →
        s1 + w1 ≤ s2 → s2 + w2 ≤ NIGHT_HOURS →
        m ≤ (windowSum (prices.take NIGHT_HOURS) s1 (s1 + w1) +
              windowSum (prices.take NIGHT_HOURS) s2 (s2 + w2)) / hours) ∧
      m ≤ windowSum (prices.take NIGHT_HOURS) 0 hours / hours := by
  obtain ⟨ws, m, hok, hmin, i, hi, _⟩ := find_optimal_spec prices hours h7
  refine ⟨ws, m, hok, mem_of_getElem_eq hi, hmin, ?_, ?_, ?_⟩
  · intro s hs
    exact hmin _ (List.mem_append.mpr (Or.inl (singleCandidates_mem _ hours s hs)))
  · intro w1 w2 s1 s2 hw1 hw2 hsum hgap hfit
    exact hmin _ (List.mem_append.mpr
      (Or.inr (splitCandidates_mem _ hours w1 w2 s1 s2 hw1 hw2 hsum hgap hfit)))
  · have h0 : 0 + hours ≤ NIGHT_HOURS := by simpa using h7
    have := hmin _ (List.mem_append.mpr (Or.inl (singleCandidates_mem _ hours 0 h0)))
    simpa using this

/-- Witness for C1 at the concrete input `prices = [30, 20, 10, 40, 50, 5,
70, 80]`, `chargeHours = 2`. -/
theorem find_optimal_returns_min_mean_witness :
    ∃ ws m, find_optimal_charging_windows [30, 20, 10, 40, 50, 5, 70, 80] 2 = .ok (ws, some m) ∧
      (ws, m) ∈ allCandidates (([30, 20, 10, 40, 50, 5, 70, 80] : List ℚ).take NIGHT_HOURS) 2 ∧
      (∀ c ∈ allCandidates (([30, 20, 10, 40, 50, 5, 70, 80] : List ℚ).take NIGHT_HOURS) 2,
        m ≤ c.2) ∧
      (∀ s : ℕ, s + 2 ≤ NIGHT_HOURS →
        m ≤ windowSum (([30, 20, 10, 40, 50, 5, 70, 80] : List ℚ).take NIGHT_HOURS) s (s + 2) /
          ((2 : ℕ) : ℚ)) ∧
      (∀ w1 w2 s1 s2 : ℕ, 1 ≤ w1 → 1 ≤ w2 → w1 + w2 = 2 →
        s1 + w1 ≤ s2 → s2 + w2 ≤ NIGHT_HOURS →
        m ≤ (windowSum (([30, 20, 10, 40, 50, 5, 70, 80] : List ℚ).take NIGHT_HOURS) s1 (s1 + w1) +
              windowSum (([30, 20, 10, 40, 50, 5, 70, 80] : List ℚ).take NIGHT_HOURS) s2 (s2 + w2)) /
          ((2 : ℕ) : ℚ)) ∧
      m ≤ windowSum (([30, 20, 10, 40, 50, 5, 70, 80] : List ℚ).take NIGHT_HOURS) 0 2 /
        ((2 : ℕ) : ℚ) :=
  find_optimal_returns_min_mean [30, 20, 10, 40, 50, 5, 70, 80] 2
    (by decide) (by decide) (by decide)

/-- C3: for every prices list with at least 7 entries and every chargeHours
in `[1, 7]`, the returned windows cover exactly chargeHours hours in total,
each window satisfies `0 ≤ start < end ≤ 7`, the windows are pairwise
non-overlapping (so no hour is covered twice), sorted by ascending start, and
there are at most 2 of them. -/
theorem find_optimal_windows_invariants (prices : List ℚ) (hours : ℕ)
    (hlen : NIGHT_HOURS ≤ prices.length) (h1 : 1 ≤ hours) (h7 : hours ≤ NIGHT_HOURS) :
    ∃ ws m, find_optimal_charging_windows prices hours = .ok (ws, some m) ∧
      (ws.map fun w => w.2 - w.1).sum = hours ∧
      (∀ w ∈ ws, w.1 < w.2 ∧ w.2 ≤ NIGHT_HOURS) ∧
      ws.Pairwise (fun a b => a.2 ≤ b.1) ∧
      ws.Pairwise (fun a b => a.1 < b.1) ∧
      ws.length ≤ 2 := by
  obtain ⟨ws, m, hok, _, i, hi, _⟩ := find_optimal_spec prices hours h7
  obtain ⟨hsum, hwf, hpw, hlen2, _⟩ :=
    allCandidates_shape _ hours h1 h7 _ (mem_of_getElem_eq hi)
  refine ⟨ws, m, hok, hsum, hwf, hpw, ?_, hlen2⟩
  refine hpw.imp_of_mem ?_
  intro a b ha hb hab
  exact lt_of_lt_of_le (hwf a ha).1 hab

/-- Witness for C3 at the concrete input `prices = [8, 3, 9, 1, 7, 2, 6]`,
`chargeHours = 3`. -/
theorem find_optimal_windows_invariants_witness :
    ∃ ws m, find_optimal_charging_windows [8, 3, 9, 1, 7, 2, 6] 3 = .ok (ws, some m) ∧
      (ws.map fun w => w.2 - w.1).sum = 3 ∧
      (∀ w ∈ ws, w.1 < w.2 ∧ w.2 ≤ NIGHT_HOURS) ∧
      ws.Pairwise (fun a b => a.2 ≤ b.1) ∧
      ws.Pairwise (fun a b => a.1 < b.1) ∧
      ws.length ≤ 2 :=
  find_optimal_windows_invariants [8, 3, 9, 1, 7, 2, 6] 3 (by decide) (by decide) (by decide)

/-- C4: `find_optimal_charging_windows` replaces its best candidate only on a
strictly smaller mean, so it returns the earliest candidate, in enumeration
order, attaining the minimum mean: the result sits at some index `i` of the
candidate list, its mean is a lower bound of all candidate means, every
candidate at an index before `i` has a strictly larger mean, and the
enumeration begins with the single-block candidates in ascending order of
start (the candidate at index `j` is the block starting at `j`), followed by
the split candidates in the nested `w1`, `s1`, `s2` loop order of
`splitCandidates`. -/
theorem find_optimal_earliest_min (prices : List ℚ) (hours : ℕ)
    (h1 : 1 ≤ hours) (h7 : hours ≤ NIGHT_HOURS) :
    ∃ ws m, find_optimal_charging_windows prices hours = .ok (ws, some m) ∧
      ∃ i : ℕ, (allCandidates (prices.take NIGHT_HOURS) hours)[i]? = some (ws, m) ∧
        (∀ c ∈ allCandidates (prices.take NIGHT_HOURS) hours, m ≤ c.2) ∧
        (∀ (j : ℕ) (c : List (ℕ × ℕ) × ℚ), j < i →
          (allCandidates (prices.take NIGHT_HOURS) hours)[j]? = some c → m < c.2) ∧
        ∀ j : ℕ, j + hours ≤ NIGHT_HOURS →
          (allCandidates (prices.take NIGHT_HOURS) hours)[j]? =
            some ([(j, j + hours)],
              windowSum (prices.take NIGHT_HOURS) j (j + hours) / hours) := by
  obtain ⟨ws, m, hok, hmin, i, hi, hearly⟩ := find_optimal_spec prices hours h7
  refine ⟨ws, m, hok, i, hi, hmin, hearly, ?_⟩
  intro j hj
  have hsl : (singleCandidates (prices.take NIGHT_HOURS) hours).length =
      NIGHT_HOURS - hours + 1 := by
    rw [singleCandidates, List.length_map, List.length_range]
  have hjlt : j < (singleCandidates (prices.take NIGHT_HOURS) hours).length := by
    rw [hsl]
    show j < 7 - hours + 1
    have hj7 : j + hours ≤ 7 := hj
    omega
  rw [allCandidates, List.getElem?_append, if_pos hjlt, singleCandidates,
    List.getElem?_map]
  have hjr : j < NIGHT_HOURS - hours + 1 := by
    rw [singleCandidates, List.length_map, List.length_range] at hjlt
    exact hjlt
  simp [List.getElem?_range, hjr]

/-- Witness for C4 at the concrete input `prices = [4, 4, 4, 4, 4, 4, 4]`,
`chargeHours = 2` (an all-ties input, exercising the earliest-candidate
tie-break). -/
theorem find_optimal_earliest_min_witness :
    ∃ ws m, find_optimal_charging_windows [4, 4, 4, 4, 4, 4, 4] 2 = .ok (ws, some m) ∧
      ∃ i : ℕ, (allCandidates (([4, 4, 4, 4, 4, 4, 4] : List ℚ).take NIGHT_HOURS) 2)[i]? =
          some (ws, m) ∧
        (∀ c ∈ allCandidates (([4, 4, 4, 4, 4, 4, 4] : List ℚ).take NIGHT_HOURS) 2, m ≤ c.2) ∧
        (∀ (j : ℕ) (c : List (ℕ × ℕ) × ℚ), j < i →
          (allCandidates (([4, 4, 4, 4, 4, 4, 4] : List ℚ).take NIGHT_HOURS) 2)[j]? = some c →
            m < c.2) ∧
        ∀ j : ℕ, j + 2 ≤ NIGHT_HOURS →
          (allCandidates (([4, 4, 4, 4, 4, 4, 4] : List ℚ).take NIGHT_HOURS) 2)[j]? =
            some ([(j, j + 2)],
              windowSum (([4, 4, 4, 4, 4, 4, 4] : List ℚ).take NIGHT_HOURS) j (j + 2) /
                ((2 : ℕ) : ℚ)) :=
  find_optimal_earliest_min [4, 4, 4, 4, 4, 4, 4] 2 (by decide) (by decide)

/-- Concrete evaluation of the optimizer on the alternating price scenario
`[10, 100, 10, 100, 10, 100, 10]` with `chargeHours = 3`: since the search
considers only one contiguous window or a split into exactly two windows,
every candidate includes at least one 100-price hour, the minimum candidate
mean is `(10 + 100 + 10) / 3 = 40`, and it is first attained by the single
block `[0, 3)`. -/
lemma three_slot_scenario_eval :
    find_optimal_charging_windows [10, 100, 10, 100, 10, 100, 10] 3 =
      .ok ([(0, 3)], some 40) := by
  norm_num [find_optimal_charging_windows, chooseBest, allCandidates, singleCandidates,
    splitCandidates, windowSum, stepBest, NIGHT_HOURS, List.range', List.range_succ]

/-- C2 counterexample: on night prices `[10, 100, 10, 100, 10, 100, 10]` with
`chargeHours = 3`, `find_optimal_charging_windows` does NOT return a
three-window placement of the offsets 0, 2 and 4 with mean 10 (it cannot:
the code enumerates at most two windows); it returns `([(0, 3)], 40)`. -/
theorem three_slot_scenario_counterexample :
    find_optimal_charging_windows [10, 100, 10, 100, 10, 100, 10] 3 =
      .ok ([(0, 3)], some 40) ∧
    find_optimal_charging_windows [10, 100, 10, 100, 10, 100, 10] 3 ≠
      .ok ([(0, 1), (2, 3), (4, 5)], some 10) := by
  refine ⟨three_slot_scenario_eval, ?_⟩
  rw [three_slot_scenario_eval]
  intro hcontra
  simp only [Except.ok.injEq, Prod.mk.injEq] at hcontra
  exact absurd hcontra.1 (by decide)

/-- C2 (amended): for `chargeHours = 3` with night prices
`[10, 100, 10, 100, 10, 100, 10]`, `find_optimal_charging_windows` returns
the single contiguous block `[(0, 3)]` with mean price 40 — the minimum mean
achievable among the enumerated one- and two-window placements, every one of
which includes at least one 100-price hour. -/
theorem three_slot_scenario_actual :
    find_optimal_charging_windows [10, 100, 10, 100, 10, 100, 10] 3 =
      .ok ([(0, 3)], some 40) :=
  three_slot_scenario_eval

/-- C5: for every non-empty dailyPrices list, `is_charging_profitable`
returns `true` if and only if `meanChargePrice * priceMultiplier` is at most
the mean of the entire series. -/
theorem profitable_iff_mean_comparison (mean_charge_price price_multiplier : ℚ)
    (daily_prices : List ℚ) (hne : daily_prices ≠ []) :
    is_charging_profitable mean_charge_price price_multiplier daily_prices = .ok true ↔
      mean_charge_price * price_multiplier ≤ daily_prices.sum / daily_prices.length := by
  have h0 : daily_prices.length ≠ 0 := fun h => hne (List.length_eq_zero.mp h)
  simp [is_charging_profitable, h0]

/-- Witness for C5 at the concrete input `meanChargePrice = 5`,
`priceMultiplier = 1`, `dailyPrices = [10, 20]`. -/
theorem profitable_iff_mean_comparison_witness :
    is_charging_profitable 5 1 [10, 20] = .ok true ↔
      (5 : ℚ) * 1 ≤ ([10, 20] : List ℚ).sum / (([10, 20] : List ℚ).length : ℚ) :=
  profitable_iff_mean_comparison 5 1 [10, 20] (by decide)

/-- C6: `is_charging_profitable` fails with `InvalidInput` on the empty daily
price series, for every mean charge price and price multiplier. -/
theorem profitable_empty_invalid_input (mean_charge_price price_multiplier : ℚ) :
    is_charging_profitable mean_charge_price price_multiplier [] = .error .InvalidInput := rfl

/-- C7: `find_optimal_charging_windows` fails with `InvalidConfiguration`
whenever chargeHours exceeds 7 — the check is the first thing the function
does, before any computation on the prices — and for chargeHours in `[1, 7]`
with at least 7 prices the call succeeds with a window list and a mean. -/
theorem find_optimal_error_conditions (prices : List ℚ) (hours : ℕ) :
    (NIGHT_HOURS < hours →
      find_optimal_charging_windows prices hours = .error .InvalidConfiguration) ∧
    (1 ≤ hours → hours ≤ NIGHT_HOURS → NIGHT_HOURS ≤ prices.length →
      ∃ ws m, find_optimal_charging_windows prices hours = .ok (ws, some m)) := by
  constructor
  · intro hgt
    simp only [find_optimal_charging_windows, if_pos hgt]
  · intro _ h7 _
    obtain ⟨ws, m, hok, _⟩ := find_optimal_spec prices hours h7
    exact ⟨ws, m, hok⟩

/-- Witness for C7: `chargeHours = 8` fails with `InvalidConfiguration` and
`chargeHours = 3` succeeds, both on a 7-entry price list. -/
theorem find_optimal_error_conditions_witness :
    find_optimal_charging_windows [1, 2, 3, 4, 5, 6, 7] 8 = .error .InvalidConfiguration ∧
    ∃ ws m, find_optimal_charging_windows [1, 2, 3, 4, 5, 6, 7] 3 = .ok (ws, some m) :=
  ⟨(find_optimal_error_conditions [1, 2, 3, 4, 5, 6, 7] 8).1 (by decide),
   (find_optimal_error_conditions [1, 2, 3, 4, 5, 6, 7] 3).2 (by decide) (by decide) (by decide)⟩

/-- C8: two price lists agreeing on their first 7 entries produce identical
results for every chargeHours in `[1, 7]` — entries beyond the 7-hour night
prefix have no influence on the output. -/
theorem find_optimal_ignores_tail (prices1 prices2 : List ℚ) (hours : ℕ)
    (hpre : prices1.take NIGHT_HOURS = prices2.take NIGHT_HOURS)
    (h1 : 1 ≤ hours) (h7 : hours ≤ NIGHT_HOURS)
    (hl1 : NIGHT_HOURS ≤ prices1.length) (hl2 : NIGHT_HOURS ≤ prices2.length) :
    find_optimal_charging_windows prices1 hours =
      find_optimal_charging_windows prices2 hours := by
  simp only [find_optimal_charging_windows, hpre]

/-- Witness for C8 at the concrete inputs `[1, 2, 3, 4, 5, 6, 7, 1000]` and
`[1, 2, 3, 4, 5, 6, 7]`, `chargeHours = 2`. -/
theorem find_optimal_ignores_tail_witness :
    find_optimal_charging_windows [1, 2, 3, 4, 5, 6, 7, 1000] 2 =
      find_optimal_charging_windows [1, 2, 3, 4, 5, 6, 7] 2 :=
  find_optimal_ignores_tail [1, 2, 3, 4, 5, 6, 7, 1000] [1, 2, 3, 4, 5, 6, 7] 2
    (by decide) (by decide) (by decide) (by decide) (by decide)

/-- C9: `find_cheapest_night_charging` returns the earliest start index and
mean of the minimum-mean single contiguous block of length chargeHours within
the first 7 entries — exactly the best single-block candidate enumerated by
`find_optimal_charging_windows` — and the mean returned by the generalized
optimizer is at most the mean returned by the simple variant. -/
theorem cheapest_night_subsumed (prices : List ℚ) (hours : ℕ)
    (hlen : NIGHT_HOURS ≤ prices.length) (h1 : 1 ≤ hours) (h7 : hours ≤ NIGHT_HOURS) :
    ∃ idx m, find_cheapest_night_charging prices hours = .ok (idx, some m) ∧
      m = windowSum (prices.take NIGHT_HOURS) idx (idx + hours) / hours ∧
      idx + hours ≤ NIGHT_HOURS ∧
      (∀ s : ℕ, s + hours ≤ NIGHT_HOURS →
        m ≤ windowSum (prices.take NIGHT_HOURS) s (s + hours) / hours) ∧
      (∀ s : ℕ, s < idx →
        m < windowSum (prices.take NIGHT_HOURS) s (s + hours) / hours) ∧
      ([(idx, idx + hours)], m) ∈ singleCandidates (prices.take NIGHT_HOURS) hours ∧
      ∃ ws m2, find_optimal_charging_windows prices hours = .ok (ws, some m2) ∧ m2 ≤ m := by
  obtain ⟨idx, m, hok, hm, hfit, hminS, hearly⟩ := find_cheapest_spec prices hours h1 h7 hlen
  obtain ⟨ws, m2, hok2, hmin2, _⟩ := find_optimal_spec prices hours h7
  refine ⟨idx, m, hok, hm, hfit, hminS, hearly, ?_, ws, m2, hok2, ?_⟩
  · rw [hm]
    exact singleCandidates_mem _ hours idx hfit
  · have := hmin2 _ (List.mem_append.mpr (Or.inl (singleCandidates_mem _ hours idx hfit)))
    rw [hm]
    exact this

/-- Witness for C9 at the concrete input `prices = [9, 2, 2, 9, 9, 9, 9]`,
`chargeHours = 2`. -/
theorem cheapest_night_subsumed_witness :
    ∃ idx m, find_cheapest_night_charging [9, 2, 2, 9, 9, 9, 9] 2 = .ok (idx, some m) ∧
      m = windowSum (([9, 2, 2, 9, 9, 9, 9] : List ℚ).take NIGHT_HOURS) idx (idx + 2) /
        ((2 : ℕ) : ℚ) ∧
      idx + 2 ≤ NIGHT_HOURS ∧
      (∀ s : ℕ, s + 2 ≤ NIGHT_HOURS →
        m ≤ windowSum (([9, 2, 2, 9, 9, 9, 9] : List ℚ).take NIGHT_HOURS) s (s + 2) /
          ((2 : ℕ) : ℚ)) ∧
      (∀ s : ℕ, s < idx →
        m < windowSum (([9, 2, 2, 9, 9, 9, 9] : List ℚ).take NIGHT_HOURS) s (s + 2) /
          ((2 : ℕ) : ℚ)) ∧
      ([(idx, idx + 2)], m) ∈
        singleCandidates (([9, 2, 2, 9, 9, 9, 9] : List ℚ).take NIGHT_HOURS) 2 ∧
      ∃ ws m2, find_optimal_charging_windows [9, 2, 2, 9, 9, 9, 9] 2 = .ok (ws, some m2) ∧
        m2 ≤ m :=
  cheapest_night_subsumed [9, 2, 2, 9, 9, 9, 9] 2 (by decide) (by decide) (by decide)

/-- C10: the mean price returned by `find_optimal_charging_windows` equals
the sum of the night-prefix prices over the hours covered by the returned
windows (the per-window slice sums), divided by chargeHours — the reported
mean is always consistent with the reported windows. -/
theorem find_optimal_mean_matches_windows (prices : List ℚ) (hours : ℕ)
    (hlen : NIGHT_HOURS ≤ prices.length) (h1 : 1 ≤ hours) (h7 : hours ≤ NIGHT_HOURS) :
    ∃ ws m, find_optimal_charging_windows prices hours = .ok (ws, some m) ∧
      m = (ws.map fun w => windowSum (prices.take NIGHT_HOURS) w.1 w.2).sum / hours := by
  obtain ⟨ws, m, hok, _, i, hi, _⟩ := find_optimal_spec prices hours h7
  obtain ⟨_, _, _, _, hmean⟩ := allCandidates_shape _ hours h1 h7 _ (mem_of_getElem_eq hi)
  exact ⟨ws, m, hok, hmean⟩

/-- Witness for C10 at the concrete input `prices = [6, 1, 8, 1, 6, 9, 9]`,
`chargeHours = 2`. -/
theorem find_optimal_mean_matches_windows_witness :
    ∃ ws m, find_optimal_charging_windows [6, 1, 8, 1, 6, 9, 9] 2 = .ok (ws, some m) ∧
      m = (ws.map fun w =>
        windowSum (([6, 1, 8, 1, 6, 9, 9] : List ℚ).take NIGHT_HOURS) w.1 w.2).sum /
          ((2 : ℕ) : ℚ) :=
  find_optimal_mean_matches_windows [6, 1, 8, 1, 6, 9, 9] 2 (by decide) (by decide) (by decide)

end ESS
